import Mathlib

/-!
Verification of the page-selection engine of stapler (`staplelib/commands.py`).

The definitions below are a shallow embedding of the Python source:
pure helper functions become Lean functions, the per-file loops of the
commands become structural recursions, and exceptions become `Except`.
PDF page objects are abstracted as `(source file name, 1-based page
index, clockwise rotation in degrees)` triples, which is exactly the
information the commands attach to each emitted page.
-/

namespace Staplelib

/--
Embedding of `round_robin_list` (commands.py lines 14-27), the
round-robin recipe credited to George Sakkis.  The Python generator keeps a cycle of iterators,
yields one element from the current iterator and moves on to the next;
an iterator that raises `StopIteration` is dropped from the cycle
(`pending -= 1; cycle(islice(cycled_iterables, pending))` restarts the
cycle at the iterator after the exhausted one).  That behaviour is a
queue discipline on the suffixes of the input lists: look at the front
iterator; if it is exhausted remove it for good, otherwise emit its
head and rotate the remainder to the back of the queue.
-/
def round_robin_list {α : Type} : List (List α) → List α
  | [] => []
  | [] :: rest => round_robin_list rest
  | (a :: s) :: rest => a :: round_robin_list (rest ++ [s])
termination_by ls => 2 * (ls.map List.length).sum + ls.length
decreasing_by
  · simp
  · simp [List.map_append, List.sum_append]
    omega

/-- Replacing every list by its tail does not increase the total number
of elements. -/
theorem sum_length_tail_le {α : Type} (ls : List (List α)) :
    ((ls.map List.tail).map List.length).sum ≤ (ls.map List.length).sum := by
  induction ls with
  | nil => simp
  | cons l rest ih =>
    have hl : l.tail.length ≤ l.length := by cases l <;> simp
    simp only [List.map_cons, List.sum_cons]
    omega

/-- If not every list is empty, replacing every list by its tail
strictly decreases the total number of elements. -/
theorem sum_length_tail_lt {α : Type} (ls : List (List α))
    (h : (ls.map List.length).sum ≠ 0) :
    ((ls.map List.tail).map List.length).sum < (ls.map List.length).sum := by
  induction ls with
  | nil => simp at h
  | cons l rest ih =>
    have hle := sum_length_tail_le rest
    rcases l with _ | ⟨a, s⟩
    · simp only [List.map_cons, List.sum_cons, List.length_nil, List.tail_nil] at h ⊢
      have := ih (by simpa using h)
      simpa using this
    · simp only [List.map_cons, List.sum_cons, List.tail_cons, List.length_cons]
      omega

/--
Transcription of the specification's description of the round-robin
sequencer (spec section 4.4): repeatedly take one element from each
still-nonempty input list in left-to-right order until all lists are
exhausted.  This definition follows the spec's words; the theorem for
claim C1 compares it with `round_robin_list`, which follows the code.
-/
def interleaveRounds {α : Type} (ls : List (List α)) : List α :=
  if (ls.map List.length).sum = 0 then []
  else ls.filterMap List.head? ++ interleaveRounds (ls.map List.tail)
termination_by (ls.map List.length).sum
decreasing_by
  rename_i h
  exact sum_length_tail_lt ls h

/-- Equation of `round_robin_list`: the empty collection produces nothing. -/
theorem rr_nil {α : Type} : round_robin_list ([] : List (List α)) = [] := by
  simp [round_robin_list]

/-- Equation of `round_robin_list`: an exhausted iterator is dropped from
the cycle. -/
theorem rr_cons_nil {α : Type} (rest : List (List α)) :
    round_robin_list ([] :: rest) = round_robin_list rest := by
  simp [round_robin_list]

/-- Equation of `round_robin_list`: a live iterator emits its next element
and rotates to the back of the cycle. -/
theorem rr_cons_cons {α : Type} (a : α) (s : List α) (rest : List (List α)) :
    round_robin_list ((a :: s) :: rest) = a :: round_robin_list (rest ++ [s]) := by
  simp [round_robin_list]

/-- Empty lists at the front of the queue can be discarded eagerly. -/
theorem rr_drop_empty {α : Type} :
    ∀ (xs ys : List (List α)),
      round_robin_list (xs ++ ys)
        = round_robin_list (xs.filter (fun l => !l.isEmpty) ++ ys) := by
  intro xs
  induction xs with
  | nil => intro ys; rfl
  | cons l xs ih =>
    intro ys
    rcases l with _ | ⟨a, s⟩
    · have hf : List.filter (fun l => !l.isEmpty) ([] :: xs)
          = List.filter (fun l => !l.isEmpty) xs := by simp
      rw [List.cons_append, rr_cons_nil, hf]
      exact ih ys
    · have hf : List.filter (fun l => !l.isEmpty) ((a :: s) :: xs)
          = (a :: s) :: List.filter (fun l => !l.isEmpty) xs := by simp
      rw [List.cons_append, rr_cons_cons, hf, List.cons_append, rr_cons_cons,
        List.append_assoc, List.append_assoc]
      exact congrArg (a :: ·) (ih (ys ++ [s]))

/-- One pass over a queue of nonempty iterators emits each of their heads
in order and leaves the tails queued behind `ys`. -/
theorem rr_take_heads {α : Type} :
    ∀ (xs ys : List (List α)), (∀ l ∈ xs, l ≠ []) →
      round_robin_list (xs ++ ys)
        = xs.filterMap List.head? ++ round_robin_list (ys ++ xs.map List.tail) := by
  intro xs
  induction xs with
  | nil => intro ys _; simp
  | cons l xs ih =>
    intro ys h
    have hl : l ≠ [] := h l (by simp)
    rcases l with _ | ⟨a, s⟩
    · exact absurd rfl hl
    · have hx : ∀ l ∈ xs, l ≠ [] := fun l hm => h l (by simp [hm])
      rw [List.cons_append, rr_cons_cons, List.append_assoc, ih (ys ++ [s]) hx]
      simp [List.append_assoc]

/-- Prefiltering empty lists does not change which heads are collected. -/
theorem filterMap_head_filter {α : Type} :
    ∀ (ls : List (List α)),
      (ls.filter (fun l => !l.isEmpty)).filterMap List.head?
        = ls.filterMap List.head? := by
  intro ls
  induction ls with
  | nil => rfl
  | cons l xs ih => rcases l with _ | ⟨a, s⟩ <;> simp [ih]

/-- Taking tails commutes with discarding empty lists, up to the empty
lists the tails themselves produce. -/
theorem filter_tail_filter {α : Type} :
    ∀ (ls : List (List α)),
      ((ls.filter (fun l => !l.isEmpty)).map List.tail).filter (fun l => !l.isEmpty)
        = (ls.map List.tail).filter (fun l => !l.isEmpty) := by
  intro ls
  induction ls with
  | nil => rfl
  | cons l xs ih =>
    rcases l with _ | ⟨a, s⟩
    · simpa using ih
    · cases s <;> simp [ih]

/-- A queue of exhausted iterators produces nothing. -/
theorem rr_of_all_empty {α : Type} :
    ∀ (ls : List (List α)), (ls.map List.length).sum = 0 → round_robin_list ls = [] := by
  intro ls
  induction ls with
  | nil => intro _; exact rr_nil
  | cons l xs ih =>
    intro h
    simp only [List.map_cons, List.sum_cons] at h
    have hl : l = [] := List.eq_nil_of_length_eq_zero (by omega)
    subst hl
    rw [rr_cons_nil]
    exact ih (by omega)

/-- `round_robin_list` performs one full round over the queue: it emits the
head of every nonempty list in left-to-right order and then continues on
the tails. -/
theorem rr_step {α : Type} (ls : List (List α)) :
    round_robin_list ls
      = ls.filterMap List.head? ++ round_robin_list (ls.map List.tail) := by
  have h1 := rr_drop_empty ls ([] : List (List α))
  have h2 := rr_take_heads (ls.filter (fun l => !l.isEmpty)) ([] : List (List α))
    (by
      intro l hm
      have := List.of_mem_filter hm
      simpa [List.isEmpty_iff] using this)
  have h4 : round_robin_list ((ls.filter (fun l => !l.isEmpty)).map List.tail)
      = round_robin_list (ls.map List.tail) := by
    have a1 := rr_drop_empty ((ls.filter (fun l => !l.isEmpty)).map List.tail)
      ([] : List (List α))
    have a2 := rr_drop_empty (ls.map List.tail) ([] : List (List α))
    rw [List.append_nil, List.append_nil, filter_tail_filter] at a1
    rw [List.append_nil, List.append_nil] at a2
    exact a1.trans a2.symm
  simp only [List.append_nil, List.nil_append] at h1 h2
  rw [h1, h2, filterMap_head_filter, h4]

/-- The code's round-robin generator agrees with the specification's
rounds-based description on every finite family of finite lists. -/
theorem rr_eq_interleave {α : Type} (ls : List (List α)) :
    round_robin_list ls = interleaveRounds ls := by
  have key : ∀ (n : Nat) (ls : List (List α)), (ls.map List.length).sum ≤ n →
      round_robin_list ls = interleaveRounds ls := by
    intro n
    induction n with
    | zero =>
      intro ls h
      have h0 : (ls.map List.length).sum = 0 := Nat.le_zero.mp h
      rw [rr_of_all_empty ls h0, interleaveRounds, if_pos h0]
    | succ n ih =>
      intro ls h
      by_cases h0 : (ls.map List.length).sum = 0
      · rw [rr_of_all_empty ls h0, interleaveRounds, if_pos h0]
      · rw [rr_step, interleaveRounds, if_neg h0]
        congr 1
        apply ih
        have := sum_length_tail_lt ls h0
        omega
  exact key _ ls le_rfl

/-- Claim C1: for every list of finite input sequences the round-robin
sequencer `round_robin_list` produces exactly the sequence obtained by
taking one element from each still-nonempty input list in left-to-right
order, repeating until all lists are exhausted (the sequence described
by `interleaveRounds`, transcribed from the spec), so elements of a
single source list are never reordered; in particular on the page lists
[A,B,C] and [D,E] it yields [A,D,B,E,C], the shorter list dropping out
without stalling the longer one. -/
theorem C1_round_robin_sequencer :
    (∀ (α : Type) (ls : List (List α)), round_robin_list ls = interleaveRounds ls)
    ∧ round_robin_list [['A', 'B', 'C'], ['D', 'E']] = ['A', 'D', 'B', 'E', 'C']
    ∧ round_robin_list [['A', 'B', 'C'], ['D'], ['E', 'F']]
        = ['A', 'D', 'E', 'B', 'F', 'C'] := by
  refine ⟨fun α ls => rr_eq_interleave ls, ?_, ?_⟩
  · simp [round_robin_list]
  · simp [round_robin_list]

/-- A fully resolved selection-plan entry: the abstraction of the page
object `pdf.getPage(pageno - 1).rotateClockwise(rotate)` appended to the
output writer, recorded as (source file name, 1-based page index,
clockwise rotation in degrees). -/
abbrev PlanEntry := String × Nat × Nat

/-- A selection plan: the ordered pages fed to the output writer. -/
abbrev Plan := List PlanEntry

/-- One entry of `filesandranges` as produced by `iohelper.parse_ranges`:
the dictionary with keys `name` (file name), `pages` (the parsed range
expression, a list of (page number, rotation) pairs, empty when no range
was given) and `pdf` (the opened document, of which the commands only
use `getNumPages()`, kept here as `numPages`). -/
structure FileInput where
  name : String
  pages : List (Nat × Nat)
  numPages : Nat
deriving DecidableEq

/-- The `CommandError` exceptions raised in commands.py, by message:
`missingInput` is CommandError("Both input and output filenames are
required."), `pageOutOfRange p f` is CommandError("Page p not found
in f."), and `wrapped e` is the re-raise `raise CommandError(e)` in the
`except Exception` handler. -/
inductive CommandError where
  | missingInput : CommandError
  | pageOutOfRange (page : Nat) (file : String) : CommandError
  | wrapped (inner : CommandError) : CommandError
deriving DecidableEq

/-- The exact message string carried by each `CommandError`. -/
def CommandError.message : CommandError → String
  | .missingInput => "Both input and output filenames are required."
  | .pageOutOfRange page file =>
      "Page " ++ toString page ++ " not found in " ++ file ++ "."
  | .wrapped inner => inner.message

/-- `iohelper.ROTATION_NONE`, the rotation applied when no range entry
supplies one. -/
def ROTATION_NONE : Nat := 0

/-- The default page range built by zip_pdfs (lines 47-50) and select
(lines 103-107) when the parsed range is empty:
`[(p, ROTATION_NONE) for p in range(1, pdf.getNumPages() + 1)]`. -/
def allPages (numPages : Nat) : List (Nat × Nat) :=
  (List.range' 1 numPages).map (fun p => (p, ROTATION_NONE))

/-- The inclusive page range of one input (`input_args['pages'] or
[...]`): the parsed range itself, or every page when the parsed range is
empty (Python's `or` on an empty list). -/
def inclusiveRange (f : FileInput) : List (Nat × Nat) :=
  if f.pages = [] then allPages f.numPages else f.pages

/-- The exclusive page range of one input (select lines 108-112):
`excluded = [p for p, r in pages]` followed by
`[(p, ROTATION_NONE) for p in range(1, n + 1) if p not in excluded]`. -/
def exclusiveRange (f : FileInput) : List (Nat × Nat) :=
  let excluded := f.pages.map Prod.fst
  ((List.range' 1 f.numPages).filter (fun p => decide (¬ p ∈ excluded))).map
    (fun p => (p, ROTATION_NONE))

/-- The page-emitting loop shared by zip_pdfs (lines 53-63) and select
(lines 114-124): each (pageno, rotate) pair whose page number passes the
bounds check `1 <= pageno <= pdf.getNumPages()` contributes the page
object to the output, and the first failing pair raises
CommandError("Page pageno not found in name."). -/
def checkPages (name : String) (numPages : Nat) :
    List (Nat × Nat) → Except CommandError Plan
  | [] => .ok []
  | (pageno, rotate) :: rest =>
    if 1 ≤ pageno ∧ pageno ≤ numPages then
      match checkPages name numPages rest with
      | .ok entries => .ok ((name, pageno, rotate) :: entries)
      | .error e => .error e
    else
      .error (.pageOutOfRange pageno name)

/-- Expansion and bounds-checking of a single input file: the body of the
per-file loop of zip_pdfs and select, with `inverse` selecting the
exclusive branch of select. -/
def expandFile (inverse : Bool) (f : FileInput) : Except CommandError Plan :=
  checkPages f.name f.numPages
    (if inverse then exclusiveRange f else inclusiveRange f)

/-- The `for input_args in filesandranges` loop: files are processed in
order and the first exception aborts the remaining ones. -/
def expandAll (inverse : Bool) : List FileInput → Except CommandError (List Plan)
  | [] => .ok []
  | f :: rest =>
    match expandFile inverse f with
    | .error e => .error e
    | .ok plan =>
      match expandAll inverse rest with
      | .error e => .error e
      | .ok plans => .ok (plan :: plans)

/-- Embedding of `select(args, inverse)` (commands.py lines 80-133) after
argument resolution: empty input list or empty output name raise the
missing-input CommandError before the `try` block; inside the `try`, each
file is expanded (inclusively or exclusively) and bounds-checked, its
pages appended to the output writer in order, and any exception is
re-raised wrapped in a fresh CommandError; the resulting plan is the
concatenation of the per-file plans. -/
def select (filesandranges : List FileInput) (outputfilename : String)
    (inverse : Bool) : Except CommandError Plan :=
  if filesandranges = [] ∨ outputfilename = "" then
    .error .missingInput
  else
    match expandAll inverse filesandranges with
    | .error e => .error (.wrapped e)
    | .ok plans => .ok plans.flatten

/-- Embedding of `delete(args)` (commands.py lines 136-139):
`select(args, inverse=True)`. -/
def delete (filesandranges : List FileInput) (outputfilename : String) :
    Except CommandError Plan :=
  select filesandranges outputfilename true

/-- Embedding of `zip_pdfs(args)` (commands.py lines 30-77) after argument
resolution: the same missing-input check and the same inclusive per-file
expansion and bounds check as select, but the per-file page lists are
merged with `round_robin_list` instead of concatenated. -/
def zip_pdfs (filesandranges : List FileInput) (outputfilename : String) :
    Except CommandError Plan :=
  if filesandranges = [] ∨ outputfilename = "" then
    .error .missingInput
  else
    match expandAll false filesandranges with
    | .error e => .error (.wrapped e)
    | .ok filestozip => .ok (round_robin_list filestozip)

/-- The write step at the end of zip_pdfs and select: `iohelper.write_pdf`
runs only when the command body finished without an exception, so the
list of written output files is empty exactly when the command failed. -/
def writtenOutputs (result : Except CommandError Plan) (outputfilename : String) :
    List (String × Plan) :=
  match result with
  | .ok plan => [(outputfilename, plan)]
  | .error _ => []

/-- When every page number of the list is within bounds, the emitting
loop succeeds and emits one plan entry per list entry, in order. -/
theorem checkPages_ok_of_bounds (name : String) (numPages : Nat) :
    ∀ (l : List (Nat × Nat)), (∀ pr ∈ l, 1 ≤ pr.1 ∧ pr.1 ≤ numPages) →
      checkPages name numPages l = .ok (l.map (fun pr => (name, pr.1, pr.2))) := by
  intro l
  induction l with
  | nil => intro _; rfl
  | cons pr rest ih =>
    intro h
    obtain ⟨p, r⟩ := pr
    have hp : 1 ≤ p ∧ p ≤ numPages := h (p, r) (by simp)
    have hrest := fun pr hm => h pr (List.mem_cons_of_mem _ hm)
    simp only [checkPages, if_pos hp, ih hrest, List.map_cons]

/-- The emitting loop succeeds exactly when every page number of the
list is within bounds. -/
theorem checkPages_ok_iff (name : String) (numPages : Nat) :
    ∀ (l : List (Nat × Nat)),
      (∃ plan, checkPages name numPages l = .ok plan) ↔
        ∀ pr ∈ l, 1 ≤ pr.1 ∧ pr.1 ≤ numPages := by
  intro l
  induction l with
  | nil => simp [checkPages]
  | cons pr rest ih =>
    obtain ⟨p, r⟩ := pr
    by_cases hp : 1 ≤ p ∧ p ≤ numPages
    · constructor
      · rintro ⟨plan, hplan⟩
        simp only [checkPages, if_pos hp] at hplan
        cases hrest : checkPages name numPages rest with
        | error e => rw [hrest] at hplan; exact absurd hplan (by simp)
        | ok entries =>
          have hall := ih.mp ⟨entries, hrest⟩
          intro pr hm
          rcases List.mem_cons.mp hm with h1 | h2
          · subst h1; exact hp
          · exact hall pr h2
      · intro h
        obtain ⟨entries, he⟩ := ih.mpr (fun pr hm => h pr (by simp [hm]))
        exact ⟨(name, p, r) :: entries, by simp only [checkPages, if_pos hp, he]⟩
    · constructor
      · rintro ⟨plan, hplan⟩
        simp only [checkPages, if_neg hp] at hplan
        exact absurd hplan (by simp)
      · intro h
        exact absurd (h (p, r) (by simp)) hp

/-- When the emitting loop fails it fails with the page-out-of-range
error naming the processed file and the first offending page number. -/
theorem checkPages_error_shape (name : String) (numPages : Nat) :
    ∀ (l : List (Nat × Nat)) (e : CommandError),
      checkPages name numPages l = .error e →
      ∃ p, e = .pageOutOfRange p name ∧ p ∈ l.map Prod.fst
        ∧ ¬(1 ≤ p ∧ p ≤ numPages) := by
  intro l
  induction l with
  | nil => intro e h; exact absurd h (by simp [checkPages])
  | cons pr rest ih =>
    intro e h
    obtain ⟨p, r⟩ := pr
    by_cases hp : 1 ≤ p ∧ p ≤ numPages
    · simp only [checkPages, if_pos hp] at h
      cases hrest : checkPages name numPages rest with
      | error e2 =>
        rw [hrest] at h
        have he : e2 = e := by simpa using h
        obtain ⟨q, hq1, hq2, hq3⟩ := ih e2 hrest
        exact ⟨q, he ▸ hq1, by simp [hq2], hq3⟩
      | ok entries => rw [hrest] at h; exact absurd h (by simp)
    · simp only [checkPages, if_neg hp] at h
      have he : CommandError.pageOutOfRange p name = e := by simpa using h
      exact ⟨p, he.symm, by simp, hp⟩

/-- Every entry of the default all-pages range is within bounds. -/
theorem allPages_bounds (numPages : Nat) :
    ∀ pr ∈ allPages numPages, 1 ≤ pr.1 ∧ pr.1 ≤ numPages := by
  intro pr hm
  simp only [allPages, List.mem_map] at hm
  obtain ⟨p, hp, rfl⟩ := hm
  have := List.mem_range'_1.mp hp
  exact ⟨this.1, by omega⟩

/-- Every entry of the exclusive (complement) range is within bounds. -/
theorem exclusiveRange_bounds (f : FileInput) :
    ∀ pr ∈ exclusiveRange f, 1 ≤ pr.1 ∧ pr.1 ≤ f.numPages := by
  intro pr hm
  simp only [exclusiveRange, List.mem_map, List.mem_filter] at hm
  obtain ⟨p, ⟨hp, _⟩, rfl⟩ := hm
  have := List.mem_range'_1.mp hp
  exact ⟨this.1, by omega⟩

/-- Claim C6: on the inclusive path (zip and select) an empty range
expression expands to all pages 1..page_count in ascending order with
rotation 0; in particular select on a single 3-page file with no range
produces the plan [1,2,3] in order, and so does zip. -/
theorem C6_empty_range_means_all_pages :
    (∀ (name : String) (n : Nat),
      inclusiveRange ⟨name, [], n⟩ = (List.range' 1 n).map (fun p => (p, ROTATION_NONE))
      ∧ expandFile false ⟨name, [], n⟩
          = .ok ((List.range' 1 n).map (fun p => (name, p, ROTATION_NONE))))
    ∧ select [⟨"a.pdf", [], 3⟩] "out.pdf" false
        = .ok [("a.pdf", 1, 0), ("a.pdf", 2, 0), ("a.pdf", 3, 0)]
    ∧ zip_pdfs [⟨"a.pdf", [], 3⟩] "out.pdf"
        = .ok [("a.pdf", 1, 0), ("a.pdf", 2, 0), ("a.pdf", 3, 0)] := by
  refine ⟨fun name n => ⟨rfl, ?_⟩, by rfl, ?_⟩
  · have h := checkPages_ok_of_bounds name n (allPages n) (allPages_bounds n)
    have : expandFile false ⟨name, [], n⟩ = checkPages name n (allPages n) := rfl
    rw [this, h, allPages, List.map_map]
    rfl
  · simp [zip_pdfs, expandAll, expandFile, inclusiveRange, allPages, checkPages,
      ROTATION_NONE, round_robin_list]

/-- Claim C5: on the inclusive path (zip and select) expansion of a file
succeeds exactly when every page index of its expanded range lies within
[1, page_count]; when it fails, the error is the page-out-of-range
CommandError naming the offending file and page number, and the whole
command fails with that error wrapped. -/
theorem C5_inclusive_path_bounds_check :
    ∀ (f : FileInput),
      ((∃ plan, expandFile false f = .ok plan) ↔
        ∀ pr ∈ inclusiveRange f, 1 ≤ pr.1 ∧ pr.1 ≤ f.numPages)
      ∧ (∀ e, expandFile false f = .error e →
          ∃ p, e = .pageOutOfRange p f.name
            ∧ p ∈ (inclusiveRange f).map Prod.fst ∧ ¬(1 ≤ p ∧ p ≤ f.numPages))
      ∧ (∀ out, out ≠ "" → ∀ e, expandFile false f = .error e →
          select [f] out false = .error (.wrapped e)
          ∧ zip_pdfs [f] out = .error (.wrapped e)) := by
  intro f
  have hdef : expandFile false f = checkPages f.name f.numPages (inclusiveRange f) := rfl
  refine ⟨?_, ?_, ?_⟩
  · rw [hdef]; exact checkPages_ok_iff f.name f.numPages (inclusiveRange f)
  · intro e he
    rw [hdef] at he
    exact checkPages_error_shape f.name f.numPages (inclusiveRange f) e he
  · intro out hout e he
    have hnil : ¬([f] = [] ∨ out = "") := by simp [hout]
    have hall : expandAll false [f] = .error e := by simp [expandAll, he]
    constructor
    · rw [select, if_neg hnil, hall]
    · rw [zip_pdfs, if_neg hnil, hall]

/-- Witness for C5: requesting page 10 of a 3-page file on the inclusive
path makes both select and zip fail with the wrapped page-out-of-range
error naming the file and the page. -/
theorem C5_witness :
    select [⟨"a.pdf", [(10, 0)], 3⟩] "out.pdf" false
        = .error (.wrapped (.pageOutOfRange 10 "a.pdf"))
      ∧ zip_pdfs [⟨"a.pdf", [(10, 0)], 3⟩] "out.pdf"
        = .error (.wrapped (.pageOutOfRange 10 "a.pdf")) :=
  (C5_inclusive_path_bounds_check ⟨"a.pdf", [(10, 0)], 3⟩).2.2 "out.pdf"
    (by decide) (.pageOutOfRange 10 "a.pdf") (by rfl)

/-- Counterexample to claim C9 as stated: over every in-bounds range
expression the occurrence-by-occurrence description fails for the empty
expression, which emits all pages (here 2 of them) rather than one page
per occurrence (zero). -/
theorem C9_counterexample :
    expandFile false ⟨"a.pdf", [], 2⟩ = .ok [("a.pdf", 1, 0), ("a.pdf", 2, 0)]
    ∧ (Except.ok [("a.pdf", 1, 0), ("a.pdf", 2, 0)] : Except CommandError Plan)
        ≠ .ok ((([] : List (Nat × Nat))).map
            (fun pr => ("a.pdf", pr.1, pr.2))) :=
  ⟨rfl, fun h => List.noConfusion (Except.ok.inj h)⟩

/-- Claim C9 (amended): on the inclusive path a nonempty in-bounds range
expression is emitted occurrence by occurrence, in its stated order, with
its stated rotations: duplicates are preserved, not deduplicated (the
empty expression instead expands to all pages). -/
theorem C9_duplicates_preserved :
    ∀ (f : FileInput), f.pages ≠ [] →
      (∀ pr ∈ f.pages, 1 ≤ pr.1 ∧ pr.1 ≤ f.numPages) →
      expandFile false f = .ok (f.pages.map (fun pr => (f.name, pr.1, pr.2))) := by
  intro f hne hb
  have hrange : inclusiveRange f = f.pages := by rw [inclusiveRange, if_neg hne]
  have hdef : expandFile false f = checkPages f.name f.numPages (inclusiveRange f) := rfl
  rw [hdef, hrange]
  exact checkPages_ok_of_bounds f.name f.numPages f.pages hb

/-- Witness for C9: a range naming page 1 three times emits page 1 three
times. -/
theorem C9_witness :
    expandFile false ⟨"a.pdf", [(1, 0), (1, 0), (1, 0)], 3⟩
      = .ok [("a.pdf", 1, 0), ("a.pdf", 1, 0), ("a.pdf", 1, 0)] :=
  C9_duplicates_preserved ⟨"a.pdf", [(1, 0), (1, 0), (1, 0)], 3⟩
    (by decide) (by decide)

/-- Claim C3: the exclusive path (delete) emits exactly the ascending
complement of the excluded page numbers — all pages 1..page_count not
named in the expression, in ascending order, each with rotation 0 and any
rotation of the expression discarded — so each page 1..page_count is
included exactly when its number is not excluded. -/
theorem C3_delete_emits_ascending_complement :
    ∀ (f : FileInput), ∃ plan,
      expandFile true f = .ok plan
      ∧ plan = ((List.range' 1 f.numPages).filter
            (fun p => decide (¬ p ∈ f.pages.map Prod.fst))).map
            (fun p => (f.name, p, ROTATION_NONE))
      ∧ (∀ p, 1 ≤ p → p ≤ f.numPages →
          ((p ∈ plan.map (fun e => e.2.1)) ↔ ¬ p ∈ f.pages.map Prod.fst))
      ∧ List.Pairwise (· < ·) (plan.map (fun e => e.2.1))
      ∧ (∀ e ∈ plan, e.1 = f.name ∧ e.2.2 = ROTATION_NONE) := by
  intro f
  have hdef : expandFile true f = checkPages f.name f.numPages (exclusiveRange f) := rfl
  have hok := checkPages_ok_of_bounds f.name f.numPages (exclusiveRange f)
    (exclusiveRange_bounds f)
  refine ⟨(exclusiveRange f).map (fun pr => (f.name, pr.1, pr.2)), by rw [hdef, hok], ?_, ?_, ?_, ?_⟩
  · rw [exclusiveRange, List.map_map]; rfl
  · intro p h1 h2
    simp only [exclusiveRange, List.map_map, List.mem_map, Function.comp,
      List.mem_filter, decide_eq_true_eq]
    constructor
    · rintro ⟨q, ⟨_, hq⟩, rfl⟩
      exact hq
    · intro hnot
      exact ⟨p, ⟨List.mem_range'_1.mpr ⟨h1, by omega⟩, hnot⟩, rfl⟩
  · have hpw : List.Pairwise (· < ·) (List.range' 1 f.numPages) := by
      have := List.pairwise_lt_range' 1 f.numPages
      simpa using this
    have hfil := List.Pairwise.filter
      (fun p => decide (¬ p ∈ f.pages.map Prod.fst)) hpw
    rw [List.map_map, exclusiveRange, List.map_map, List.pairwise_map]
    simpa using hfil
  · intro e he
    simp only [exclusiveRange, List.map_map, List.mem_map] at he
    obtain ⟨p, _, rfl⟩ := he
    exact ⟨rfl, rfl⟩

/-- Witness for C3: delete with range "2" on a 3-page file yields the
plan [1,3]. -/
theorem C3_witness :
    ∃ plan, expandFile true ⟨"a.pdf", [(2, 0)], 3⟩ = .ok plan
      ∧ plan = [("a.pdf", 1, 0), ("a.pdf", 3, 0)] := by
  obtain ⟨plan, h1, h2, _⟩ := C3_delete_emits_ascending_complement ⟨"a.pdf", [(2, 0)], 3⟩
  exact ⟨plan, h1, by rw [h2]; rfl⟩

/-- Page numbers within bounds are excluded by a range expression exactly
when they are excluded by the expression with its out-of-range entries
removed. -/
theorem mem_map_fst_filter_bounds (pages : List (Nat × Nat)) (n p : Nat)
    (hp : 1 ≤ p ∧ p ≤ n) :
    (p ∈ (pages.filter (fun pr => decide (1 ≤ pr.1 ∧ pr.1 ≤ n))).map Prod.fst)
      ↔ p ∈ pages.map Prod.fst := by
  simp only [List.mem_map, List.mem_filter, decide_eq_true_eq]
  constructor
  · rintro ⟨pr, ⟨hm, _⟩, rfl⟩
    exact ⟨pr, hm, rfl⟩
  · rintro ⟨pr, hm, rfl⟩
    exact ⟨pr, ⟨hm, hp⟩, rfl⟩

/-- Claim C4: on the exclusive path (delete) an excluded page number
outside [1, page_count] is silently ignored: expansion always succeeds
(no page-out-of-range error is ever raised), the result is the same as
if the out-of-range numbers were absent from the expression, and the
whole delete command succeeds. -/
theorem C4_delete_ignores_out_of_range :
    ∀ (f : FileInput),
      (∃ plan, expandFile true f = .ok plan)
      ∧ expandFile true f
          = expandFile true ⟨f.name,
              f.pages.filter (fun pr => decide (1 ≤ pr.1 ∧ pr.1 ≤ f.numPages)),
              f.numPages⟩
      ∧ (∀ out, out ≠ "" → ∃ plan, delete [f] out = .ok plan) := by
  intro f
  have hdef : ∀ (g : FileInput),
      expandFile true g = checkPages g.name g.numPages (exclusiveRange g) :=
    fun g => rfl
  have hok := checkPages_ok_of_bounds f.name f.numPages (exclusiveRange f)
    (exclusiveRange_bounds f)
  refine ⟨⟨_, by rw [hdef f, hok]⟩, ?_, ?_⟩
  · rw [hdef f, hdef]
    have hfil : exclusiveRange f = exclusiveRange ⟨f.name,
        f.pages.filter (fun pr => decide (1 ≤ pr.1 ∧ pr.1 ≤ f.numPages)),
        f.numPages⟩ := by
      rw [exclusiveRange, exclusiveRange]
      have := List.filter_congr (l := List.range' 1 f.numPages)
        (p := fun p => decide (¬ p ∈ f.pages.map Prod.fst))
        (q := fun p => decide (¬ p ∈ (f.pages.filter
          (fun pr => decide (1 ≤ pr.1 ∧ pr.1 ≤ f.numPages))).map Prod.fst))
        (fun p hp => by
          have hb := List.mem_range'_1.mp hp
          have hpb : 1 ≤ p ∧ p ≤ f.numPages := ⟨hb.1, by omega⟩
          exact decide_eq_decide.mpr
            (not_congr (mem_map_fst_filter_bounds f.pages f.numPages p hpb).symm))
      rw [this]
    rw [hfil]
  · intro out hout
    have hnil : ¬([f] = [] ∨ out = "") := by simp [hout]
    have hall : expandAll true [f]
        = .ok [(exclusiveRange f).map (fun pr => (f.name, pr.1, pr.2))] := by
      simp [expandAll, hdef f, hok]
    exact ⟨_, by rw [delete, select, if_neg hnil, hall]⟩

/-- Witness for C4: deleting page 10 of a 3-page file succeeds silently
and leaves all 3 pages. -/
theorem C4_witness :
    (∃ plan, delete [⟨"a.pdf", [(10, 0)], 3⟩] "out.pdf" = .ok plan)
    ∧ delete [⟨"a.pdf", [(10, 0)], 3⟩] "out.pdf"
        = .ok [("a.pdf", 1, 0), ("a.pdf", 2, 0), ("a.pdf", 3, 0)] :=
  ⟨(C4_delete_ignores_out_of_range ⟨"a.pdf", [(10, 0)], 3⟩).2.2 "out.pdf"
      (by decide), by rfl⟩

/-- Claim C10: delete with an empty range expression excludes nothing: it
emits all pages 1..page_count in ascending order with rotation 0, leaving
the document's page sequence unchanged. -/
theorem C10_delete_empty_range_keeps_all :
    ∀ (name out : String) (n : Nat), out ≠ "" →
      expandFile true ⟨name, [], n⟩
          = .ok ((List.range' 1 n).map (fun p => (name, p, ROTATION_NONE)))
      ∧ delete [⟨name, [], n⟩] out
          = .ok ((List.range' 1 n).map (fun p => (name, p, ROTATION_NONE))) := by
  intro name out n hout
  have hex : exclusiveRange ⟨name, [], n⟩
      = (List.range' 1 n).map (fun p => (p, ROTATION_NONE)) := by
    rw [exclusiveRange]
    have : (List.range' 1 n).filter
        (fun p => decide (¬ p ∈ (([] : List (Nat × Nat)).map Prod.fst)))
        = List.range' 1 n := by
      rw [List.filter_congr (q := fun _ => true) (fun p _ => by simp)]
      exact List.filter_true _
    simp only [List.map_nil] at this ⊢
    rw [this]
  have hfirst : expandFile true ⟨name, [], n⟩
      = .ok ((List.range' 1 n).map (fun p => (name, p, ROTATION_NONE))) := by
    have hdef : expandFile true ⟨name, [], n⟩
        = checkPages name n (exclusiveRange ⟨name, [], n⟩) := rfl
    rw [hdef, hex, checkPages_ok_of_bounds name n _
      (fun pr hm => by
        simp only [List.mem_map] at hm
        obtain ⟨p, hp, rfl⟩ := hm
        have := List.mem_range'_1.mp hp
        exact ⟨this.1, by omega⟩),
      List.map_map]
    rfl
  refine ⟨hfirst, ?_⟩
  have hnil : ¬([(⟨name, [], n⟩ : FileInput)] = [] ∨ out = "") := by simp [hout]
  have hall : expandAll true [⟨name, [], n⟩]
      = .ok [(List.range' 1 n).map (fun p => (name, p, ROTATION_NONE))] := by
    simp [expandAll, hfirst]
  rw [delete, select, if_neg hnil, hall]
  simp

/-- Witness for C10: delete with an empty range on a 3-page file keeps
pages [1,2,3] in order. -/
theorem C10_witness :
    expandFile true ⟨"a.pdf", [], 3⟩
        = .ok [("a.pdf", 1, 0), ("a.pdf", 2, 0), ("a.pdf", 3, 0)]
    ∧ delete [⟨"a.pdf", [], 3⟩] "out.pdf"
        = .ok [("a.pdf", 1, 0), ("a.pdf", 2, 0), ("a.pdf", 3, 0)] :=
  C10_delete_empty_range_keeps_all "a.pdf" "out.pdf" 3 (by decide)

/-- If any file of the batch fails to expand, the whole per-file loop
fails. -/
theorem expandAll_error_of_mem :
    ∀ (files : List FileInput) (inverse : Bool) (f : FileInput) (e : CommandError),
      f ∈ files → expandFile inverse f = .error e →
      ∃ e2, expandAll inverse files = .error e2 := by
  intro files
  induction files with
  | nil => intro inverse f e h _; exact absurd h (by simp)
  | cons g rest ih =>
    intro inverse f e hm he
    cases hg : expandFile inverse g with
    | error e2 => exact ⟨e2, by simp [expandAll, hg]⟩
    | ok plan =>
      rcases List.mem_cons.mp hm with h1 | h2
      · subst h1; rw [hg] at he; exact absurd he (by simp)
      · obtain ⟨e2, h2'⟩ := ih inverse f e h2 he
        exact ⟨e2, by simp [expandAll, hg, h2']⟩

/-- Claim C7: for zip, select and delete, a failure while expanding or
bounds-checking any one input file aborts the whole command with a
CommandError wrapping the underlying cause, and no output file is written
on failure; an output file is written exactly when the full plan was
built for all input files. -/
theorem C7_failure_aborts_whole_command :
    ∀ (files : List FileInput) (out : String) (inverse : Bool), out ≠ "" →
      (∀ (f : FileInput) (e : CommandError), f ∈ files →
        expandFile inverse f = .error e →
          (∃ e2, select files out inverse = .error (.wrapped e2)
            ∧ writtenOutputs (select files out inverse) out = [])
          ∧ (inverse = false →
              ∃ e2, zip_pdfs files out = .error (.wrapped e2)
                ∧ writtenOutputs (zip_pdfs files out) out = []))
      ∧ (∀ plan, select files out inverse = .ok plan →
          writtenOutputs (select files out inverse) out = [(out, plan)])
      ∧ (∀ plan, zip_pdfs files out = .ok plan →
          writtenOutputs (zip_pdfs files out) out = [(out, plan)]) := by
  intro files out inverse hout
  refine ⟨?_, ?_, ?_⟩
  · intro f e hm he
    have hne : files ≠ [] := List.ne_nil_of_mem hm
    have hnil : ¬(files = [] ∨ out = "") := by simp [hout, hne]
    constructor
    · obtain ⟨e2, h2⟩ := expandAll_error_of_mem files inverse f e hm he
      refine ⟨e2, ?_, ?_⟩
      · rw [select, if_neg hnil, h2]
      · rw [select, if_neg hnil, h2]; rfl
    · intro hinv
      subst hinv
      obtain ⟨e2, h2⟩ := expandAll_error_of_mem files false f e hm he
      refine ⟨e2, ?_, ?_⟩
      · rw [zip_pdfs, if_neg hnil, h2]
      · rw [zip_pdfs, if_neg hnil, h2]; rfl
  · intro plan h
    rw [h]; rfl
  · intro plan h
    rw [h]; rfl

/-- Witness for C7: with a good first file and a second file requesting
page 10 of 3 pages, both select and zip abort with a wrapped error and
write nothing. -/
theorem C7_witness :
    (∃ e2, select [⟨"a.pdf", [], 2⟩, ⟨"b.pdf", [(10, 0)], 3⟩] "out.pdf" false
        = .error (.wrapped e2)
      ∧ writtenOutputs
          (select [⟨"a.pdf", [], 2⟩, ⟨"b.pdf", [(10, 0)], 3⟩] "out.pdf" false)
          "out.pdf" = [])
    ∧ (∃ e2, zip_pdfs [⟨"a.pdf", [], 2⟩, ⟨"b.pdf", [(10, 0)], 3⟩] "out.pdf"
        = .error (.wrapped e2)
      ∧ writtenOutputs
          (zip_pdfs [⟨"a.pdf", [], 2⟩, ⟨"b.pdf", [(10, 0)], 3⟩] "out.pdf")
          "out.pdf" = []) := by
  have h := (C7_failure_aborts_whole_command
      [⟨"a.pdf", [], 2⟩, ⟨"b.pdf", [(10, 0)], 3⟩] "out.pdf" false (by decide)).1
    ⟨"b.pdf", [(10, 0)], 3⟩ (.pageOutOfRange 10 "b.pdf") (by decide) (by rfl)
  exact ⟨h.1, h.2 rfl⟩

/-- Outcomes of running a command on a raw argument list: either a
`CommandError` (the uniform command error of the tool) or the Python
IndexError that `args[-1]` raises on an empty list, which is not a
CommandError and escapes the command layer. -/
inductive PyError where
  | command (e : CommandError) : PyError
  | indexError : PyError
deriving DecidableEq

/-- Embedding of the argument handling at the top of `select` (lines
87-88): `filesandranges = iohelper.parse_ranges(args[:-1])`, then
`outputfilename = args[-1]`.  Modelled from the spec: the Range Resolver
`iohelper.parse_ranges` is not part of src/; per spec section 4.2 it maps
each `file[:range]` token to its InputSpec in input order, so it is
abstracted as a per-token resolver function, and on an empty token list
it resolves nothing.  `args[-1]` on an empty argument list raises an
uncaught IndexError, modelled as `PyError.indexError`. -/
def selectCmd (resolve : String → FileInput) (args : List String)
    (inverse : Bool) : Except PyError Plan :=
  let filesandranges := args.dropLast.map resolve
  match args.getLast? with
  | none => .error .indexError
  | some outputfilename =>
    match select filesandranges outputfilename inverse with
    | .ok plan => .ok plan
    | .error e => .error (.command e)

/-- Embedding of the argument handling at the top of `zip_pdfs` (lines
33-34), identical in shape to `selectCmd`. -/
def zipCmd (resolve : String → FileInput) (args : List String) :
    Except PyError Plan :=
  let filesandranges := args.dropLast.map resolve
  match args.getLast? with
  | none => .error .indexError
  | some outputfilename =>
    match zip_pdfs filesandranges outputfilename with
    | .ok plan => .ok plan
    | .error e => .error (.command e)

/-- Counterexample to claim C8 as stated: on the empty argument list the
commands do not fail with the missing-input CommandError; `args[-1]`
raises an IndexError first. -/
theorem C8_counterexample :
    zipCmd (fun _ => ⟨"a.pdf", [], 3⟩) [] = .error .indexError
    ∧ selectCmd (fun _ => ⟨"a.pdf", [], 3⟩) [] false = .error .indexError
    ∧ selectCmd (fun _ => ⟨"a.pdf", [], 3⟩) [] true = .error .indexError
    ∧ (Except.error PyError.indexError : Except PyError Plan)
        ≠ .error (.command .missingInput) :=
  ⟨rfl, rfl, rfl, by intro h; exact PyError.noConfusion (Except.error.inj h)⟩

/-- Claim C8 (amended): for every nonempty argument list whose input
tokens resolve to the empty list (only an output name is present), zip,
select and delete fail with the missing-input CommandError; the empty
argument list instead raises an uncaught IndexError from `args[-1]`. -/
theorem C8_no_input_files_missing_input :
    ∀ (resolve : String → FileInput) (args : List String) (inverse : Bool),
      args ≠ [] → args.dropLast = [] →
      selectCmd resolve args inverse = .error (.command .missingInput)
      ∧ zipCmd resolve args = .error (.command .missingInput) := by
  intro resolve args inverse hne hdrop
  obtain ⟨a, rfl⟩ : ∃ a, args = [a] := by
    cases args with
    | nil => exact absurd rfl hne
    | cons a t =>
      cases t with
      | nil => exact ⟨a, rfl⟩
      | cons b t2 => simp [List.dropLast] at hdrop
  constructor
  · simp [selectCmd, select]
  · simp [zipCmd, zip_pdfs]

/-- Witness for C8: an argument list carrying only the output filename
makes select and zip fail with the missing-input CommandError. -/
theorem C8_witness :
    selectCmd (fun _ => ⟨"a.pdf", [], 3⟩) ["out.pdf"] false
        = .error (.command .missingInput)
    ∧ zipCmd (fun _ => ⟨"a.pdf", [], 3⟩) ["out.pdf"]
        = .error (.command .missingInput) :=
  C8_no_input_files_missing_input (fun _ => ⟨"a.pdf", [], 3⟩) ["out.pdf"] false
    (by decide) (by rfl)

/-- Bounded search for the least `k` (starting from `k0`) with
`n ≤ 10 ^ k`.  `fuel` bounds the recursion; `fuel = n` always suffices
because `n ≤ 10 ^ n`. -/
def ceilLog10Go (n : Nat) : Nat → Nat → Nat
  | 0, k => k
  | fuel + 1, k => if n ≤ 10 ^ k then k else ceilLog10Go n fuel (k + 1)

/-- Embedding of `math.ceil(math.log10(n))` in split's filename template
(commands.py lines 165-172): the least `k` with `n ≤ 10 ^ k`.  For the
page counts of in-memory documents the Python float computation is
exact, so the real-valued ceiling coincides with this integer one. -/
def ceilLog10 (n : Nat) : Nat := ceilLog10Go n n 0

/-- Embedding of the `'%0<width>d' % num` formatting used by split's
output template: the decimal representation of `num` left-padded with
zeros to `width` characters (never truncated). -/
def padNum (width num : Nat) : String :=
  String.mk (List.replicate (width - (toString num).length) '0') ++ toString num

/-- The number of decimal digits of a page count, transcribed from the
claim's words ("the number of decimal digits in the file's page count");
the theorem for claim C2 compares the code's padding width against it. -/
def decimalDigitCount (n : Nat) : Nat := (toString n).length

/-- Embedding of split's per-file loop (commands.py lines 160-182): for a
file with `numPages` pages it produces one single-page output per page
`pageno` in `range(numPages)`, written to
`base + '_' + ('%0<width>d' % (pageno + 1)) + ext` with
`width = ceil(log10(numPages))`, containing exactly page `pageno + 1`
(no rotation is applied). -/
def splitFile (name base ext : String) (numPages : Nat) :
    List (String × Plan) :=
  (List.range numPages).map (fun pageno =>
    (base ++ "_" ++ padNum (ceilLog10 numPages) (pageno + 1) ++ ext,
      [(name, pageno + 1, ROTATION_NONE)]))

/-- Counterexample to claim C2 as stated: for a 10-page file the code's
padding width is ceil(log10(10)) = 1, not the digit count 2 of the page
count, so the first output is named with an unpadded index. -/
theorem C2_counterexample :
    decimalDigitCount 10 = 2
    ∧ ceilLog10 10 = 1
    ∧ (splitFile "doc.pdf" "doc" ".pdf" 10).head?
        = some ("doc_1.pdf", [("doc.pdf", 1, 0)])
    ∧ "doc_1.pdf" ≠ "doc" ++ "_" ++ padNum (decimalDigitCount 10) 1 ++ ".pdf" :=
  ⟨rfl, rfl, rfl, by decide⟩

/-- Claim C2 (amended): for every file with page_count ≥ 1, split
produces exactly one single-page output per page index 1..page_count,
named `<basename>_<zero-padded-index><ext>` with zero-padding width
ceil(log10(page_count)) — the number of decimal digits of the page count
except when the page count is an exact power of ten, where it is one
less (width 0 for a single-page document, which formats identically to
width 1); a 12-page file yields names _01 to _12 and a 1-page file
yields _1. -/
theorem C2_split_names :
    (∀ (name base ext : String) (n : Nat), 1 ≤ n →
      (splitFile name base ext n).length = n
      ∧ (∀ i, i < n → (splitFile name base ext n)[i]?
          = some (base ++ "_" ++ padNum (ceilLog10 n) (i + 1) ++ ext,
              [(name, i + 1, ROTATION_NONE)])))
    ∧ (splitFile "doc.pdf" "doc" ".pdf" 12).map Prod.fst
        = ["doc_01.pdf", "doc_02.pdf", "doc_03.pdf", "doc_04.pdf",
           "doc_05.pdf", "doc_06.pdf", "doc_07.pdf", "doc_08.pdf",
           "doc_09.pdf", "doc_10.pdf", "doc_11.pdf", "doc_12.pdf"]
    ∧ (splitFile "doc.pdf" "doc" ".pdf" 1).map Prod.fst = ["doc_1.pdf"] := by
  refine ⟨fun name base ext n _ => ⟨by simp [splitFile], ?_⟩, by rfl, by rfl⟩
  intro i hi
  simp [splitFile, List.getElem?_map, List.getElem?_range hi]

/-- Witness for C2: the split of a 12-page file has 12 outputs and its
first output is page 1 named with a 2-digit zero-padded index. -/
theorem C2_witness :
    (splitFile "doc.pdf" "doc" ".pdf" 12).length = 12
    ∧ (splitFile "doc.pdf" "doc" ".pdf" 12)[0]?
        = some ("doc" ++ "_" ++ padNum (ceilLog10 12) (0 + 1) ++ ".pdf",
            [("doc.pdf", 0 + 1, ROTATION_NONE)]) := by
  have h := (C2_split_names).1 "doc.pdf" "doc" ".pdf" 12 (by decide)
  exact ⟨h.1, h.2 0 (by decide)⟩

end Staplelib
